import Mathlib

/-!
Verification of the `a-code` syntax-highlighting component.

Shallow embedding of the tokenization engine of `a-code.js` (v2.0.1) together
with the `argument` scanners of `syntax.php.js` and `syntax.python.js`.
Strings are modelled as `List Char` (UTF-16 code units of the inputs used here
are all in the BMP, so one `Char` per JS index position).
-/

namespace ACode

/-- Characters of the javascript `\s` class (the ASCII subset, which covers all
inputs this development evaluates); also used to model `String.prototype.trim`. -/
def jsWs (c : Char) : Bool :=
  c == ' ' || c == '\t' || c == '\n' || c == '\r' || c == '\x0b' || c == '\x0c'

/-- Characters of the javascript `\w` class: `[A-Za-z0-9_]`. -/
def wordChar (c : Char) : Bool :=
  c.isAlphanum || c == '_'

/-- Length of the leading run of characters satisfying `p` (greedy `p*`). -/
def runLen (p : Char → Bool) : List Char → Nat
  | [] => 0
  | c :: rest => if p c then runLen p rest + 1 else 0

/-- Scanner state shared by the PHP and Python `argument` scanners: the three
depth counters and the active quote character (`null` when not inside a quote). -/
structure ScanState where
  depthParen : Int
  depthBracket : Int
  depthBrace : Int
  quoteChar : Option Char
deriving Repr, DecidableEq

/-- Initial scanner state on entering an argument list: parenthesis depth starts
at 1, representing "inside the header's own parentheses". -/
def ScanState.init : ScanState := ⟨1, 0, 0, none⟩

/-- One character of the shared body-scanner loop (identical in `syntax.php.js`
and `syntax.python.js`): quote handling first, then depth bookkeeping. Returns
the updated state plus the `isComma` (argument separator at top level) and
`isEnd` (parenthesis depth reached zero) flags; both flags are `false` whenever
the character was consumed by quote handling (the javascript `continue`). -/
def scanStep (st : ScanState) (prev : Option Char) (c : Char) : ScanState × Bool × Bool :=
  match st.quoteChar with
  | some q =>
      if c == q && prev != some '\\' then ({ st with quoteChar := none }, false, false)
      else (st, false, false)
  | none =>
      if c == '"' || c == '\'' then ({ st with quoteChar := some c }, false, false)
      else
        let st' :=
          if c == '(' then { st with depthParen := st.depthParen + 1 }
          else if c == ')' then { st with depthParen := st.depthParen - 1 }
          else if c == '[' then { st with depthBracket := st.depthBracket + 1 }
          else if c == ']' then { st with depthBracket := st.depthBracket - 1 }
          else if c == '{' then { st with depthBrace := st.depthBrace + 1 }
          else if c == '}' then { st with depthBrace := st.depthBrace - 1 }
          else st
        let isComma :=
          c == ',' && st'.depthParen == 1 && st'.depthBracket == 0 && st'.depthBrace == 0
        (st', isComma, st'.depthParen == 0)

/-- The forward scan over an argument list, shared by both scanners: walks the
characters after the header's opening parenthesis, carrying the previous raw
character (`string[i - 1]`), the absolute index, the scanner state and the
start of the current argument; on a separator or on end of list it hands the
raw span `[argStart, i)` to `extract` and appends the produced range. -/
def scanArgsLoop (extract : Nat → Nat → Option (Nat × Nat)) :
    List Char → Option Char → Nat → ScanState → Nat → List (Nat × Nat) → List (Nat × Nat)
  | [], _, _, _, _, acc => acc
  | c :: rest, prev, i, st, argStart, acc =>
      match scanStep st prev c with
      | (st', isComma, isEnd) =>
        if isComma || isEnd then
          let acc' := acc ++ (extract argStart i).toList
          if isEnd then acc'
          else scanArgsLoop extract rest (some c) (i + 1) st' (i + 1) acc'
        else scanArgsLoop extract rest (some c) (i + 1) st' argStart acc

/-- All matches of a header pattern in `matchAll` style: scan left to right, at
each position try `hdr` on the remaining suffix; on a match of length `len`
record `i + len` (the index just past the opening parenthesis, where argument
scanning starts) and resume searching after the match. The `fuel` argument only
bounds the number of iterations (each iteration advances the position by at
least one, so `s.length + 1` iterations always suffice). -/
def findHeadersAux (hdr : List Char → Option Nat) (s : List Char) : Nat → Nat → List Nat
  | 0, _ => []
  | fuel + 1, i =>
    if s.length ≤ i then []
    else
      match hdr (s.drop i) with
      | some 0 => i :: findHeadersAux hdr s fuel (i + 1)
      | some (len + 1) => (i + len + 1) :: findHeadersAux hdr s fuel (i + len + 1)
      | none => findHeadersAux hdr s fuel (i + 1)

/-- All header matches of `hdr` in `s`, scanning from the start. -/
def findHeaders (hdr : List Char → Option Nat) (s : List Char) (i : Nat) : List Nat :=
  findHeadersAux hdr s (s.length + 1 - i) i

/-- Index of the first occurrence of `pat` as a contiguous sublist
(`String.prototype.indexOf`), counting from offset `i`. -/
def indexOfSubAux (pat : List Char) : List Char → Nat → Option Nat
  | l, i =>
    if List.isPrefixOf pat l then some i
    else
      match l with
      | [] => none
      | _ :: rest => indexOfSubAux pat rest (i + 1)

/-- Index of the first occurrence of `pat` as a contiguous sublist of `s`. -/
def indexOfSub (s pat : List Char) : Option Nat := indexOfSubAux pat s 0

/-- Index of the last occurrence of `pat` as a contiguous sublist
(`String.prototype.lastIndexOf`), counting from offset `i`. -/
def lastIndexOfSubAux (pat : List Char) : List Char → Nat → Option Nat
  | l, i =>
    let later :=
      match l with
      | [] => none
      | _ :: rest => lastIndexOfSubAux pat rest (i + 1)
    match later with
    | some j => some j
    | none => if List.isPrefixOf pat l then some i else none

/-- Index of the last occurrence of `pat` as a contiguous sublist of `s`. -/
def lastIndexOfSub (s pat : List Char) : Option Nat := lastIndexOfSubAux pat s 0

/-- The javascript `string.substring(a, b)` (for `a ≤ b`). -/
def sliceSub (s : List Char) (a b : Nat) : List Char := (s.drop a).take (b - a)

/-- The substring of `s` covered by a half-open `(start, end)` range. -/
def rangeSub (s : List Char) (r : Nat × Nat) : List Char := sliceSub s r.1 r.2

section PhpScanner

/-- Start characters of a PHP header function name: `[a-zA-Z_\x80-\xff]`. -/
def phpHdrNameStart (c : Char) : Bool :=
  c.isAlpha || c == '_' || (decide (128 ≤ c.toNat) && decide (c.toNat ≤ 255))

/-- Length of the match of the PHP definition-header pattern
`function\s+(?:[a-zA-Z_\x80-\xff]\w*\s*)?\(` at the head of `l`, when it
matches there (the greedy subpatterns are deterministic here because `\s`,
`\w` and `(` are pairwise disjoint character classes). -/
def phpHeaderLen (l : List Char) : Option Nat :=
  if List.isPrefixOf "function".data l then
    let r1 := l.drop 8
    let n := runLen jsWs r1
    if n == 0 then none
    else
      match r1.drop n with
      | [] => none
      | c :: cs =>
          if c == '(' then some (8 + n + 1)
          else if phpHdrNameStart c then
            let nameLen := 1 + runLen wordChar cs
            let r3 := (c :: cs).drop nameLen
            let m := runLen jsWs r3
            match r3.drop m with
            | '(' :: _ => some (8 + n + nameLen + m + 1)
            | _ => none
          else none
  else none

/-- Start characters of a PHP variable name: `[a-zA-Z_\x7f-\xff]`. -/
def phpVarNameStart (c : Char) : Bool :=
  c.isAlpha || c == '_' || (decide (127 ≤ c.toNat) && decide (c.toNat ≤ 255))

/-- Continuation characters of a PHP variable name: `[a-zA-Z0-9_\x7f-\xff]`. -/
def phpVarNameChar (c : Char) : Bool := phpVarNameStart c || c.isDigit

/-- Match of `\$[a-zA-Z_\x7f-\xff][a-zA-Z0-9_\x7f-\xff]*` at the head of `l`. -/
def phpDollarName : List Char → Option (List Char)
  | '$' :: c :: rest =>
      if phpVarNameStart c then some ('$' :: c :: rest.takeWhile phpVarNameChar) else none
  | _ => none

/-- Match of `(?:&|\.\.\.)?\$name` at the head of `l`: the optional marker group
tries `&`, then `...`, then nothing, exactly as the regex alternation does. -/
def phpVarMatchAt (l : List Char) : Option (List Char) :=
  match l with
  | '&' :: rest => (phpDollarName rest).map (fun m => '&' :: m)
  | '.' :: '.' :: '.' :: rest => (phpDollarName rest).map (fun m => '.' :: '.' :: '.' :: m)
  | _ => phpDollarName l

/-- First (leftmost) match of the PHP variable pattern inside `l`
(`searchPart.match(...)` with a non-anchored, non-global regex). -/
def phpVarFirst : List Char → Option (List Char)
  | [] => none
  | c :: rest =>
      match phpVarMatchAt (c :: rest) with
      | some m => some m
      | none => phpVarFirst rest

/-- The raw-argument processing of the PHP `argument` scanner: skip all-blank
spans, truncate at the first `=`, find the variable pattern, relocate it with
`indexOf`, and emit absolute offsets `(start, start + length)`. The matched
string includes the optional `&` or `...` marker, since the marker sits inside
the regex capture. -/
def phpExtract (s : List Char) (argStart i : Nat) : Option (Nat × Nat) :=
  let rawArg := sliceSub s argStart i
  if rawArg.all jsWs then none
  else
    let searchPart :=
      match indexOfSub rawArg ['='] with
      | some k => rawArg.take k
      | none => rawArg
    match phpVarFirst searchPart with
    | none => none
    | some m =>
        match indexOfSub searchPart m with
        | none => none
        | some mi => some (argStart + mi, argStart + mi + m.length)

/-- The PHP `argument` scanner of `syntax.php.js`: one `(start, end)` offset
pair per emitted `Range`, over all definition headers found in `s`. -/
def phpArgRanges (s : List Char) : List (Nat × Nat) :=
  (findHeaders phpHeaderLen s 0).flatMap
    (fun start => scanArgsLoop (phpExtract s) (s.drop start) s[start - 1]? start .init start [])

end PhpScanner

section PyScanner

/-- Start characters of a Python identifier in these patterns: `[a-zA-Z_]`. -/
def pyNameStart (c : Char) : Bool := c.isAlpha || c == '_'

/-- Length of the match of the Python definition-header pattern
`def\s+[a-zA-Z_]\w*\s*\(` at the head of `l`, when it matches there. -/
def pyHeaderLen (l : List Char) : Option Nat :=
  if List.isPrefixOf "def".data l then
    let r1 := l.drop 3
    let n := runLen jsWs r1
    if n == 0 then none
    else
      match r1.drop n with
      | [] => none
      | c :: cs =>
          if pyNameStart c then
            let nameLen := 1 + runLen wordChar cs
            let r3 := (c :: cs).drop nameLen
            let m := runLen jsWs r3
            match r3.drop m with
            | '(' :: _ => some (3 + n + nameLen + m + 1)
            | _ => none
          else none
  else none

/-- Anchored match of `^\s*(\*{0,2})([a-zA-Z_]\w*)` against `l`: returns the
whitespace run, the star run and the captured name. A star run longer than two
can never match (after backtracking the name would have to start with `*`). -/
def pyNameMatch (l : List Char) : Option (List Char × List Char × List Char) :=
  let ws := l.takeWhile jsWs
  let r1 := l.drop ws.length
  let stars := r1.takeWhile (fun c => c == '*')
  if stars.length ≤ 2 then
    match r1.drop stars.length with
    | [] => none
    | c :: rest =>
        if pyNameStart c then some (ws, stars, c :: rest.takeWhile wordChar) else none
  else none

/-- The raw-argument processing of the Python `argument` scanner: skip all-blank
spans, match the anchored name pattern, then place the name inside the matched
prefix via `lastIndexOf` (so leading stars and spaces are excluded). -/
def pyExtract (s : List Char) (argStart i : Nat) : Option (Nat × Nat) :=
  let rawArg := sliceSub s argStart i
  if rawArg.all jsWs then none
  else
    match pyNameMatch rawArg with
    | none => none
    | some (ws, stars, name) =>
        match lastIndexOfSub (ws ++ stars ++ name) name with
        | none => none
        | some off => some (argStart + off, argStart + off + name.length)

/-- The Python `argument` scanner of `syntax.python.js`: one `(start, end)`
offset pair per emitted `Range`, over all definition headers found in `s`. -/
def pyArgRanges (s : List Char) : List (Nat × Nat) :=
  (findHeaders pyHeaderLen s 0).flatMap
    (fun start => scanArgsLoop (pyExtract s) (s.drop start) s[start - 1]? start .init start [])

end PyScanner

section ResetSpaces

/-- Replace every CRLF by LF (`string.replace(/\r\n/g, '\n')`). -/
def normNewlines : List Char → List Char
  | '\r' :: '\n' :: rest => '\n' :: normNewlines rest
  | c :: rest => c :: normNewlines rest
  | [] => []

/-- Remove the leading newline run (`string.replace(/^\n+/, '')`). -/
def dropLeadingNl (l : List Char) : List Char := l.dropWhile (fun c => c == '\n')

/-- Remove trailing whitespace (`String.prototype.trimEnd`). -/
def trimEnd (l : List Char) : List Char := (l.reverse.dropWhile jsWs).reverse

/-- Remove up to `b` leading spaces (the first line's base indentation:
`^[ ]{0,b}` replaced by the empty string). -/
def dropBaseIndent : Nat → List Char → List Char
  | 0, l => l
  | _, [] => []
  | b + 1, c :: rest => if c == ' ' then dropBaseIndent b rest else c :: rest

/-- Replace each leading space with one tab (`^[ ]+` replaced by a tab per
space). -/
def leadingSpacesToTabs : List Char → List Char
  | [] => []
  | c :: rest => if c == ' ' then '\t' :: leadingSpacesToTabs rest else c :: rest

/-- Per-line processing of `#resetSpaces`: strip the base indentation, then
turn the remaining leading spaces into tabs. -/
def processLine (b : Nat) (l : List Char) : List Char :=
  leadingSpacesToTabs (dropBaseIndent b l)

/-- The indentation normalizer `#resetSpaces` of a-code.js (v2.0.1):
standardize line breaks, strip leading blank lines and trailing whitespace
(returning the empty string when nothing remains), normalize tabs to spaces,
compute the first line's indentation, then per line remove that base
indentation and convert the remaining leading spaces to tabs. -/
def resetSpaces (s : List Char) : List Char :=
  if s = [] then []
  else
    let s1 := trimEnd (dropLeadingNl (normNewlines s))
    if s1 = [] then []
    else
      let s2 := s1.map (fun c => if c == '\t' then ' ' else c)
      let lines := s2.splitOn '\n'
      let b := runLen (fun c => c == ' ') lines.headI
      ['\n'].intercalate (lines.map (processLine b))

end ResetSpaces

section Keywords

/-- Is position `i` of `s` occupied by a javascript word character? Positions
outside the string count as non-word (as the `\b` assertion treats the string
edges). -/
def charIsWord (s : List Char) (i : Nat) : Bool :=
  match s[i]? with
  | some c => wordChar c
  | none => false

/-- The javascript `\b` word-boundary assertion at position `i` of `s`. -/
def boundaryAt (s : List Char) (i : Nat) : Bool :=
  (if i = 0 then false else charIsWord s (i - 1)) != charIsWord s i

/-- Deduplicate keeping first occurrences (`[...new Set(value)]`, which
preserves insertion order). -/
def dedupFirstAux (seen : List (List Char)) : List (List Char) → List (List Char)
  | [] => []
  | w :: rest =>
      if w ∈ seen then dedupFirstAux seen rest
      else w :: dedupFirstAux (w :: seen) rest

/-- Deduplicated word list, first occurrences kept in order. -/
def dedupFirst (ws : List (List Char)) : List (List Char) := dedupFirstAux [] ws

/-- One attempt of the keyword regex `\b(w1|w2|...)\b` at position `i`: a word
boundary must hold at `i`, then the alternatives are tried in list order; the
chosen alternative is a literal prefix of the remaining text (each word was
escaped, so it matches itself literally) followed by a word boundary. -/
def kwTryAt (ws : List (List Char)) (s : List Char) (i : Nat) : Option (List Char) :=
  if boundaryAt s i then
    ws.find? (fun w => List.isPrefixOf w (s.drop i) && boundaryAt s (i + w.length))
  else none

/-- The `matchAll` driver for the keyword regex: scan positions left to right,
emit each non-empty match and resume just past it; a zero-length match advances
the position by one and is dropped (the `#setRanges` zero-length filter).
`fuel` only bounds the number of iterations, each of which advances the
position by at least one. -/
def kwScanAux (ws : List (List Char)) (s : List Char) : Nat → Nat → List (Nat × Nat)
  | 0, _ => []
  | fuel + 1, i =>
    if s.length < i then []
    else
      match kwTryAt ws s i with
      | some [] => kwScanAux ws s fuel (i + 1)
      | some (c :: w) =>
          (i, i + (c :: w).length) :: kwScanAux ws s fuel (i + (c :: w).length)
      | none => kwScanAux ws s fuel (i + 1)

/-- Ranges produced for a `KeywordList` (array) rule by `#doHighlights`:
deduplicate the word list, escape each word for literal matching (semantically
the identity: the escaped word matches exactly itself), build the single
`\b`-anchored alternation, and take all non-overlapping `matchAll` matches. -/
def kwRanges (ws : List (List Char)) (s : List Char) : List (Nat × Nat) :=
  kwScanAux (dedupFirst ws) s (s.length + 2) 0

end Keywords

section Engine

/-- The value of one profile entry, as dispatched by `#doHighlights`: absent
(`null`-like, inert), a keyword array, a custom scanner function (which may
throw, modelled by `Except`), a regular expression (represented by its
`matchAll` semantics: the `(start, end)` match list it produces on a text), or
a malformed value (logged and skipped). -/
inductive Rule where
  | absent : Rule
  | keywords : List (List Char) → Rule
  | custom : (List Char → Except (List Char) (List (Nat × Nat))) → Rule
  | pattern : (List Char → List (Nat × Nat)) → Rule
  | malformed : Rule

/-- The `#setRanges` helper: all `matchAll` matches of a regex with the
zero-length matches dropped. -/
def setRanges (m : List Char → List (Nat × Nat)) (s : List Char) : List (Nat × Nat) :=
  (m s).filter (fun r => r.2 - r.1 != 0)

/-- The CSS highlight registry as visible to one highlighter instance: an
ordered association of token-type names to the ranges registered for them. -/
abbrev HighlightRegistry := List (List Char × List (Nat × Nat))

/-- Overwrite-or-append update of the registry (`CSS.highlights.set`). -/
def registrySet (reg : HighlightRegistry) (k : List Char) (v : List (Nat × Nat)) :
    HighlightRegistry :=
  match reg with
  | [] => [(k, v)]
  | (k', v') :: rest => if k' = k then (k, v) :: rest else (k', v') :: registrySet rest k v

/-- The `#applyHighlight` helper: empty range sets register nothing. -/
def applyHighlight (reg : HighlightRegistry) (k : List Char) (v : List (Nat × Nat)) :
    HighlightRegistry :=
  if v = [] then reg else registrySet reg k v

/-- The rule loop of `#doHighlights`: processes the profile entries in order.
`absent` and `malformed` entries are skipped (the latter with a logged
warning); keyword arrays and patterns contribute their ranges; a custom
scanner is invoked directly — there is no per-rule try/catch — so a thrown
failure propagates out of the loop immediately, returning the registry as
applied so far together with the error. -/
def doHighlights (s : List Char) : List (List Char × Rule) → HighlightRegistry →
    HighlightRegistry × Option (List Char)
  | [], reg => (reg, none)
  | (prop, rule) :: rest, reg =>
    match rule with
    | .absent => doHighlights s rest reg
    | .malformed => doHighlights s rest reg
    | .keywords ws => doHighlights s rest (applyHighlight reg prop (kwRanges ws s))
    | .pattern m => doHighlights s rest (applyHighlight reg prop (setRanges m s))
    | .custom f =>
        match f s with
        | .error e => (reg, some e)
        | .ok rs => doHighlights s rest (applyHighlight reg prop rs)

/-- Does a rule throw on `s`? Only a custom scanner can. -/
def ruleThrows (s : List Char) : Rule → Bool
  | .custom f => match f s with | .error _ => true | .ok _ => false
  | _ => false

/-- The error containment of `Highlighter.highlight`: `#doHighlights` runs
inside a try/catch that only logs, so the caller never sees the exception and
the registry keeps exactly what was applied before the failure. -/
def highlightApply (s : List Char) (rules : List (List Char × Rule))
    (reg : HighlightRegistry) : HighlightRegistry :=
  (doHighlights s rules reg).1

end Engine

section Registry

/-- Argument to `#getSyntaxDefs`: absent/false (`!syntax`), a literal profile
object, or a named identifier. `D` abstracts the loaded definitions payload. -/
inductive SynArg (D : Type) where
  | noSyn : SynArg D
  | objSyn : D → SynArg D
  | nameSyn : List Char → SynArg D

/-- Resolution of an identifier to a loadable location: identifiers matching
`/^(http|\.|\/)/` are used verbatim, bare names map to the conventional
`./syntax.<name>.js`. -/
def resolveUrl (s : List Char) : List Char :=
  if List.isPrefixOf "http".data s || List.isPrefixOf ".".data s ||
      List.isPrefixOf "/".data s then s
  else "./syntax.".data ++ s ++ ".js".data

/-- The `#getSyntaxDefs` resolver of a-code.js (v2.0.1): `defaults` is the
built-in profile, `cache` the module-level `syntaxCache`, `load` the
dynamic import (the module's default export, or a thrown failure). Returns the
resolved definitions, the updated cache, and whether a dynamic load was
attempted. On a load failure the defaults are returned with a logged warning —
the failure branch performs no cache insertion. -/
def getSyntaxDefs {D : Type} (defaults : D) (cache : List (List Char × D))
    (syn : SynArg D) (load : List Char → Except Unit D) :
    D × List (List Char × D) × Bool :=
  match syn with
  | .noSyn => (defaults, cache, false)
  | .objSyn d => (d, ("custom".data, d) :: cache, false)
  | .nameSyn s =>
      if s = "html".data then (defaults, cache, false)
      else
        match cache.lookup s with
        | some d => (d, cache, false)
        | none =>
            match load (resolveUrl s) with
            | .ok d => (d, (s, d) :: cache, true)
            | .error _ => (defaults, cache, true)

end Registry

section Pipeline

/-- The pipeline-relevant state of one `a-code` element: `#lastContent` (the
cached last-processed text), the rendered content text, the rendered
line-number text, the applied highlight state (the text that was successfully
tokenized, or `none` when highlights are destroyed/cleared), and the
`highlight` / `line-numbers` settings. -/
structure CodeState where
  lastContent : Option (List Char)
  contentText : List Char
  lineNums : List Char
  highlighted : Option (List Char)
  highlightOn : Bool
  lineNumbersOn : Bool
deriving Repr, DecidableEq

/-- The `#setLineNumbers` text: the numbers `1..count` joined by newlines,
where `count` is the number of lines of the content. -/
def lineNumbersFor (content : List Char) : List Char :=
  (String.intercalate "\n"
    ((List.range (content.splitOn '\n').length).map (fun i => toString (i + 1)))).data

/-- The debounced `#update` body of a-code.js (v2.0.1): normalize the current
raw content, short-circuit when it equals `#lastContent`, otherwise record it
in `#lastContent`, render it as the content text, destroy the existing
highlights, refresh the line numbers, and re-run highlighting. The
highlighting outcome is the `tokenizeOk` flag: `true` when `#highlightCode`'s
tokenization succeeds for the new content, `false` when it throws — the error
is caught and logged and the state keeps the already-destroyed highlights.
Note that `#lastContent` and the content text are assigned before
highlighting even starts. -/
def updateStep (st : CodeState) (raw : List Char) (tokenizeOk : Bool) : CodeState :=
  let newContent := resetSpaces raw
  if st.lastContent = some newContent then st
  else
    let st1 : CodeState :=
      { st with
        lastContent := some newContent
        contentText := newContent
        highlighted := none
        lineNums := if st.lineNumbersOn then lineNumbersFor newContent else st.lineNums }
    if st1.highlightOn then
      if tokenizeOk then { st1 with highlighted := some newContent } else st1
    else st1

end Pipeline

section Generations

/-- The request-generation state of `Highlighter.highlight`:
`#latestRequestId` plus the currently applied result, tagged with the
generation that produced it (`D` abstracts the resolved-definitions payload
that gets applied). -/
structure GenState (D : Type) where
  latest : Nat
  applied : Option (Nat × D)
deriving Repr

/-- The synchronous prefix of `highlight`: allocate the next request
generation (`const currentRequestId = ++this.#latestRequestId`). -/
def startRequest {D : Type} (st : GenState D) : GenState D × Nat :=
  ({ st with latest := st.latest + 1 }, st.latest + 1)

/-- The continuation of `highlight` after `await #getSyntaxDefs` resolves with
`d` for generation `g`: apply only when `g` is still the latest generation
(`if (currentRequestId !== this.#latestRequestId) return`), otherwise discard
the stale result unconditionally. -/
def resumeRequest {D : Type} (st : GenState D) (g : Nat) (d : D) : GenState D :=
  if g = st.latest then { st with applied := some (g, d) } else st

end Generations

section ClaimInputs

/-- The PHP round-trip input of the specification. -/
def phpClaimInput : List Char := "function foo(&$a, int $b = [1,2], ...$c)".data

/-- The Python nested-default input of the specification. -/
def pyClaimInput : List Char := "def f(a, b=(1,2), *, c=3)".data

/-- A keyword list with one entry that starts with a non-identifier character
(the PHP profile ships such entries: the superglobals `$GLOBALS`, `$_GET`, ...). -/
def kwDollarList : List (List Char) := ["$x".data]

/-- Text in which `$x` is immediately preceded by an identifier character. -/
def kwDollarText : List Char := "a$x;".data

/-- A two-rule profile whose first rule is a throwing custom scanner and whose
second rule is a keyword list that does match the text. -/
def throwingProfile : List (List Char × Rule) :=
  [("argument".data, Rule.custom (fun _ => Except.error "boom".data)),
   ("keyword".data, Rule.keywords ["if".data])]

/-- The text used with `throwingProfile`. -/
def throwingProfileText : List Char := "if x".data

/-- A pipeline state that has successfully rendered highlights for `old`. -/
def renderedState : CodeState :=
  { lastContent := some "old".data
    contentText := "old".data
    lineNums := []
    highlighted := some "old".data
    highlightOn := true
    lineNumbersOn := false }

/-- A dynamic import that always fails. -/
def failingLoad : List Char → Except Unit Nat := fun _ => Except.error ()

end ClaimInputs

/-! Helper lemmas. -/

/-- Every element of a deduplicated list occurs in the original list. -/
theorem mem_dedupFirstAux {seen l : List (List Char)} {w : List Char}
    (h : w ∈ dedupFirstAux seen l) : w ∈ l := by
  induction l generalizing seen with
  | nil => simp [dedupFirstAux] at h
  | cons hd tl ih =>
      by_cases hm : hd ∈ seen
      · rw [dedupFirstAux, if_pos hm] at h
        exact List.mem_cons_of_mem _ (ih h)
      · rw [dedupFirstAux, if_neg hm] at h
        rcases List.mem_cons.mp h with rfl | h
        · exact List.mem_cons_self _ _
        · exact List.mem_cons_of_mem _ (ih h)

/-- Deduplication introduces no new words. -/
theorem mem_dedupFirst {ws : List (List Char)} {w : List Char}
    (h : w ∈ dedupFirst ws) : w ∈ ws := mem_dedupFirstAux h

/-- Inversion for the keyword scan: every emitted range comes from one word of
the alternation matching literally at its start position, flanked by word
boundaries. -/
theorem kwScanAux_mem {ws : List (List Char)} {s : List Char} {fuel : Nat} {i : Nat}
    {r : Nat × Nat} (h : r ∈ kwScanAux ws s fuel i) :
    ∃ w, w ∈ ws ∧ w ≠ [] ∧ List.isPrefixOf w (s.drop r.1) = true ∧
      r.2 = r.1 + w.length ∧ boundaryAt s r.1 = true ∧ boundaryAt s r.2 = true := by
  induction fuel generalizing i with
  | zero => simp [kwScanAux] at h
  | succ fuel ih =>
      rw [kwScanAux] at h
      split at h
      · simp at h
      · rcases htry : kwTryAt ws s i with _ | w
        · rw [htry] at h
          exact ih h
        · rw [htry] at h
          cases w with
          | nil => exact ih h
          | cons c w' =>
              rcases List.mem_cons.mp h with heq | hmem
              · subst heq
                unfold kwTryAt at htry
                split at htry
                · next hb =>
                    have hw := List.find?_some htry
                    have hmemw := List.mem_of_find?_eq_some htry
                    rw [Bool.and_eq_true] at hw
                    exact ⟨c :: w', hmemw, by simp, hw.1, rfl, hb, hw.2⟩
                · exact absurd htry (by simp)
              · exact ih hmem

/-- Elements produced by `splitOnP` contain no separator. -/
theorem splitOnP_not_sat {p : Char → Bool} {s l : List Char}
    (h : l ∈ s.splitOnP p) : ∀ c ∈ l, p c = false := by
  induction s generalizing l with
  | nil =>
      rw [List.splitOnP_nil] at h
      rcases List.mem_singleton.mp h with rfl
      simp
  | cons hd tl ih =>
      rw [List.splitOnP_cons] at h
      by_cases hp : p hd
      · rw [if_pos hp] at h
        rcases List.mem_cons.mp h with rfl | h
        · simp
        · exact ih h
      · rw [if_neg hp] at h
        rcases hsp : tl.splitOnP p with _ | ⟨l0, ls⟩
        · exact absurd hsp (List.splitOnP_ne_nil p tl)
        · rw [hsp] at h
          simp only [List.modifyHead] at h
          have h0 : l0 ∈ tl.splitOnP p := by
            rw [hsp]; exact List.mem_cons_self _ _
          rcases List.mem_cons.mp h with rfl | h
          · intro c hc
            rcases List.mem_cons.mp hc with rfl | hc
            · simpa using hp
            · exact ih h0 c hc
          · have hmem : l ∈ tl.splitOnP p := by
              rw [hsp]; exact List.mem_cons_of_mem _ h
            exact ih hmem

/-- Lines produced by `splitOn` do not contain the separator. -/
theorem not_mem_splitOn {x : Char} {s l : List Char} (h : l ∈ s.splitOn x) : x ∉ l := by
  intro hx
  have := splitOnP_not_sat h x hx
  simp at this

/-- Dropping the base indentation introduces no characters. -/
theorem mem_dropBaseIndent {b : Nat} {l : List Char} {c : Char}
    (h : c ∈ dropBaseIndent b l) : c ∈ l := by
  induction b generalizing l with
  | zero => rwa [dropBaseIndent] at h
  | succ b ih =>
      cases l with
      | nil => simp [dropBaseIndent] at h
      | cons hd tl =>
          by_cases hhd : hd == ' '
          · rw [dropBaseIndent, if_pos hhd] at h
            exact List.mem_cons_of_mem _ (ih h)
          · rwa [dropBaseIndent, if_neg hhd] at h

/-- Converting leading spaces introduces only tabs. -/
theorem mem_leadingSpacesToTabs {l : List Char} {c : Char}
    (h : c ∈ leadingSpacesToTabs l) : c = '\t' ∨ c ∈ l := by
  induction l with
  | nil => simp [leadingSpacesToTabs] at h
  | cons hd tl ih =>
      by_cases hhd : hd == ' '
      · rw [leadingSpacesToTabs, if_pos hhd] at h
        rcases List.mem_cons.mp h with rfl | h
        · exact Or.inl rfl
        · rcases ih h with h | h
          · exact Or.inl h
          · exact Or.inr (List.mem_cons_of_mem _ h)
      · rw [leadingSpacesToTabs, if_neg hhd] at h
        exact Or.inr h

/-- After converting leading spaces to tabs, the first character cannot be a
space. -/
theorem leadingSpacesToTabs_head (l : List Char) :
    (leadingSpacesToTabs l).head? ≠ some ' ' := by
  cases l with
  | nil => simp [leadingSpacesToTabs]
  | cons hd tl =>
      by_cases hhd : hd == ' '
      · rw [leadingSpacesToTabs, if_pos hhd]
        simp
      · rw [leadingSpacesToTabs, if_neg hhd]
        simp only [List.head?_cons, ne_eq, Option.some.injEq]
        intro hc
        rw [hc] at hhd
        simp at hhd

/-- A processed line never starts with a space. -/
theorem processLine_head (b : Nat) (l : List Char) :
    (processLine b l).head? ≠ some ' ' := leadingSpacesToTabs_head _

/-- Line processing introduces no newline. -/
theorem processLine_no_nl {b : Nat} {l : List Char} (h : '\n' ∉ l) :
    '\n' ∉ processLine b l := by
  intro hmem
  rcases mem_leadingSpacesToTabs hmem with heq | hmem2
  · exact absurd heq (by decide)
  · exact h (mem_dropBaseIndent hmem2)

/-- CRLF normalization only keeps original characters or produces newlines. -/
theorem mem_normNewlines {s : List Char} {c : Char} (h : c ∈ normNewlines s) :
    c ∈ s ∨ c = '\n' := by
  induction s using normNewlines.induct with
  | case1 rest ih =>
      rw [normNewlines] at h
      rcases List.mem_cons.mp h with rfl | h
      · exact Or.inr rfl
      · rcases ih h with h | h
        · exact Or.inl (by simp [h])
        · exact Or.inr h
  | case2 c' rest hne ih =>
      have hrw : normNewlines (c' :: rest) = c' :: normNewlines rest := by
        rw [normNewlines]
        exact hne
      rw [hrw] at h
      rcases List.mem_cons.mp h with rfl | h
      · exact Or.inl (List.mem_cons_self _ _)
      · rcases ih h with h | h
        · exact Or.inl (List.mem_cons_of_mem _ h)
        · exact Or.inr h
  | case3 =>
      rw [normNewlines] at h
      simp at h

/-- The `#lastContent` record always holds the normalized text after an update
run, whether the run short-circuited, succeeded, or failed tokenization. -/
theorem updateStep_lastContent (st : CodeState) (raw : List Char) (ok : Bool) :
    (updateStep st raw ok).lastContent = some (resetSpaces raw) := by
  unfold updateStep
  by_cases h : st.lastContent = some (resetSpaces raw)
  · rw [if_pos h]
    exact h
  · rw [if_neg h]
    dsimp only
    split <;> (try split) <;> rfl

/-- Splitting `#doHighlights` over a concatenation of profile segments: the
second segment runs only when the first finishes without a thrown error. -/
theorem doHighlights_append (s : List Char) (l1 l2 : List (List Char × Rule))
    (reg : HighlightRegistry) :
    doHighlights s (l1 ++ l2) reg =
      match doHighlights s l1 reg with
      | (m, none) => doHighlights s l2 m
      | (m, some e) => (m, some e) := by
  induction l1 generalizing reg with
  | nil => rfl
  | cons hd tl ih =>
      obtain ⟨prop, rule⟩ := hd
      cases rule with
      | absent => rw [List.cons_append, doHighlights, doHighlights]; exact ih reg
      | malformed => rw [List.cons_append, doHighlights, doHighlights]; exact ih reg
      | keywords ws => rw [List.cons_append, doHighlights, doHighlights]; exact ih _
      | pattern m => rw [List.cons_append, doHighlights, doHighlights]; exact ih _
      | custom f =>
          rw [List.cons_append, doHighlights, doHighlights]
          cases f s with
          | error e => rfl
          | ok rs => exact ih _

/-! Claim theorems. -/

/-- C1 (counterexample): on `function foo(&$a, int $b = [1,2], ...$c)` the PHP
argument scanner does NOT emit ranges whose substrings are exactly `$a`, `$b`,
`$c`: the capture group of the variable regex includes the optional `&` and
`...` markers, so the emitted substrings are `&$a`, `$b`, `...$c`. -/
theorem php_marker_range_counterexample :
    (phpArgRanges phpClaimInput).map (rangeSub phpClaimInput) ≠
      ["$a".data, "$b".data, "$c".data] := by decide

/-- C1 (amended): on `function foo(&$a, int $b = [1,2], ...$c)` the PHP
argument scanner emits exactly three ranges, covering `&$a`, `$b` and `...$c`:
type hints and the default literal `[1,2]` are excluded, but the reference
marker `&` and the variadic marker `...` are included in the emitted range
whenever present. -/
theorem php_scanner_three_ranges :
    phpArgRanges phpClaimInput = [(13, 16), (22, 24), (34, 39)] ∧
    (phpArgRanges phpClaimInput).map (rangeSub phpClaimInput) =
      ["&$a".data, "$b".data, "...$c".data] := by decide

/-- C2 (counterexample): a throwing custom rule does abort extraction for the
remaining rules: with a profile whose first rule is a throwing custom scanner
and whose second rule is a keyword list matching the text, nothing at all is
registered — the matching keyword rule after the failing one is never run, even
though on its own it would produce the range (0, 2). -/
theorem throwing_rule_aborts_remaining :
    (doHighlights throwingProfileText throwingProfile []).1 = [] ∧
    (doHighlights throwingProfileText throwingProfile []).2 = some "boom".data ∧
    kwRanges ["if".data] throwingProfileText = [(0, 2)] := by decide

/-- C2 (amended): when a custom rule throws, the exception is caught and logged
only at the `highlight()` boundary, not per rule: the rules processed before
the offending one keep their registered ranges, and every rule after the
offending one is skipped — the loop returns immediately with the error. -/
theorem scanner_failure_skips_rest (s : List Char) (reg : HighlightRegistry)
    (pre post : List (List Char × Rule)) (prop : List Char)
    (f : List Char → Except (List Char) (List (Nat × Nat))) (e : List Char)
    (hpre : (doHighlights s pre reg).2 = none) (hf : f s = Except.error e) :
    doHighlights s (pre ++ (prop, Rule.custom f) :: post) reg =
      ((doHighlights s pre reg).1, some e) := by
  have hdh : doHighlights s pre reg = ((doHighlights s pre reg).1, none) := by
    rcases hd2 : doHighlights s pre reg with ⟨m, err⟩
    rw [hd2] at hpre
    simp only at hpre
    rw [hpre]
  rw [doHighlights_append, hdh]
  dsimp only
  simp only [doHighlights, hf]

/-- C2 (witness): the amended statement applied to a concrete profile. -/
theorem scanner_failure_skips_rest_witness :
    (doHighlights "if x".data [("comment".data, Rule.absent)] []).2 = none ∧
    doHighlights "if x".data ([("comment".data, Rule.absent)] ++
        ("argument".data, Rule.custom (fun _ => Except.error "boom".data)) ::
          [("keyword".data, Rule.keywords ["if".data])]) [] =
      ((doHighlights "if x".data [("comment".data, Rule.absent)] []).1,
        some "boom".data) :=
  ⟨rfl, scanner_failure_skips_rest _ _ _ _ _ _ _ rfl rfl⟩

/-- C3 (counterexample): when tokenization fails, the `#lastContent` record IS
updated (to the new normalized text) and the previously rendered highlight
state is destroyed rather than retained: starting from a state that had
successfully rendered highlights for `old`, an update to `new` whose
tokenization throws still records `new` and leaves no applied highlights. -/
theorem update_failure_still_records :
    (updateStep renderedState "new".data false).lastContent = some "new".data ∧
    renderedState.lastContent = some "old".data ∧
    renderedState.highlighted = some "old".data ∧
    (updateStep renderedState "new".data false).highlighted = none := by decide

/-- C3 (amended): whenever the normalized text differs from `#lastContent`, the
update run records the new text in `#lastContent` and renders it as the content
text before tokenization even starts — so both happen regardless of
tokenization success — and on a tokenization failure the previously rendered
highlight state has already been destroyed, not retained. -/
theorem update_records_before_tokenizing (st : CodeState) (raw : List Char) (ok : Bool)
    (h : st.lastContent ≠ some (resetSpaces raw)) :
    (updateStep st raw ok).lastContent = some (resetSpaces raw) ∧
    (updateStep st raw ok).contentText = resetSpaces raw ∧
    (updateStep st raw false).highlighted = none := by
  refine ⟨updateStep_lastContent st raw ok, ?_, ?_⟩
  · unfold updateStep
    rw [if_neg h]
    dsimp only
    split <;> (try split) <;> rfl
  · unfold updateStep
    rw [if_neg h]
    dsimp only
    split <;> rfl

/-- C3 (witness): the amended statement applied to a concrete state. -/
theorem update_records_before_tokenizing_witness :
    (renderedState.lastContent ≠ some (resetSpaces "new".data)) ∧
    ((updateStep renderedState "new".data false).lastContent =
        some (resetSpaces "new".data) ∧
      (updateStep renderedState "new".data false).contentText =
        resetSpaces "new".data ∧
      (updateStep renderedState "new".data false).highlighted = none) :=
  ⟨by decide, update_records_before_tokenizing renderedState "new".data false (by decide)⟩

/-- C4: on `def f(a, b=(1,2), *, c=3)` the Python argument scanner emits
exactly three ranges, whose substrings are `a`, `b` and `c`: the comma inside
the tuple literal `(1,2)` is scanned at parenthesis depth 2 and therefore not
treated as a separator, and the bare `*` argument matches no name and produces
no range. -/
theorem py_scanner_nested_defaults :
    pyArgRanges pyClaimInput = [(6, 7), (9, 10), (21, 22)] ∧
    (pyArgRanges pyClaimInput).map (rangeSub pyClaimInput) =
      ["a".data, "b".data, "c".data] := by decide

/-- C5: for two overlapping requests of generations N and N + 1, where
generation N's asynchronous load resolves after generation N + 1's, the
generation N + 1 result is applied and the later-arriving generation N result
is discarded without overwriting it. -/
theorem stale_result_never_applied {D : Type} (st : GenState D) (d1 d2 : D) :
    resumeRequest (resumeRequest (startRequest (startRequest st).1).1
        (startRequest (startRequest st).1).2 d2) (startRequest st).2 d1 =
      resumeRequest (startRequest (startRequest st).1).1
        (startRequest (startRequest st).1).2 d2 ∧
    (resumeRequest (startRequest (startRequest st).1).1
        (startRequest (startRequest st).1).2 d2).applied =
      some ((startRequest (startRequest st).1).2, d2) := by
  simp [startRequest, resumeRequest]

/-- C6: running the update pipeline a second time with the same raw input is a
no-op: the normalized text equals the recorded `#lastContent`, so the second
run returns the state unchanged, whatever the tokenization outcomes were. -/
theorem update_idempotent (st : CodeState) (raw : List Char) (ok1 ok2 : Bool) :
    updateStep (updateStep st raw ok1) raw ok2 = updateStep st raw ok1 := by
  generalize hst1 : updateStep st raw ok1 = st1
  have h : st1.lastContent = some (resetSpaces raw) :=
    hst1 ▸ updateStep_lastContent st raw ok1
  unfold updateStep
  simp [h]

/-- C7 (counterexample): when the dynamic import of a named profile fails, the
resolver returns the built-in defaults but does NOT cache them under the
identifier: the cache comes back unchanged (no entry for `php`), and a second
resolution of the same identifier attempts the failing load again. -/
theorem load_failure_not_cached :
    getSyntaxDefs 0 [] (SynArg.nameSyn "php".data) failingLoad = (0, [], true) ∧
    (getSyntaxDefs 0 [] (SynArg.nameSyn "php".data) failingLoad).2.1.lookup "php".data
      = none ∧
    (getSyntaxDefs 0 (getSyntaxDefs 0 [] (SynArg.nameSyn "php".data) failingLoad).2.1
        (SynArg.nameSyn "php".data) failingLoad).2.2 = true := by decide

/-- C7 (amended): for any uncached identifier whose load fails, the resolver
falls back to the built-in defaults (with a logged diagnostic) and leaves the
cache unchanged — the fallback is not cached — so a later resolution of the
same identifier retries the load. -/
theorem load_failure_falls_back_uncached {D : Type} (defaults : D)
    (cache : List (List Char × D)) (s : List Char) (load : List Char → Except Unit D)
    (hs : s ≠ "html".data) (hc : cache.lookup s = none)
    (hl : load (resolveUrl s) = Except.error ()) :
    getSyntaxDefs defaults cache (SynArg.nameSyn s) load = (defaults, cache, true) ∧
    (getSyntaxDefs defaults
        (getSyntaxDefs defaults cache (SynArg.nameSyn s) load).2.1
        (SynArg.nameSyn s) load).2.2 = true := by
  have h1 : getSyntaxDefs defaults cache (SynArg.nameSyn s) load
      = (defaults, cache, true) := by
    rw [getSyntaxDefs]
    rw [if_neg hs, hc, hl]
  refine ⟨h1, ?_⟩
  rw [h1]
  simp only
  rw [getSyntaxDefs, if_neg hs, hc, hl]

/-- C7 (witness): the amended statement applied to a concrete resolver state. -/
theorem load_failure_falls_back_uncached_witness :
    ("php".data ≠ "html".data) ∧
    (getSyntaxDefs 7 [] (SynArg.nameSyn "php".data) failingLoad = (7, [], true) ∧
      (getSyntaxDefs 7
          (getSyntaxDefs 7 [] (SynArg.nameSyn "php".data) failingLoad).2.1
          (SynArg.nameSyn "php".data) failingLoad).2.2 = true) :=
  ⟨by decide, load_failure_falls_back_uncached 7 [] "php".data failingLoad
    (by decide) rfl rfl⟩

/-- C8: while the scanner is inside a quoted region, a processed character
leaves all three depth counters unchanged and raises neither the separator nor
the end-of-list flag (so argument boundaries are unaffected), and the quote
closes exactly when the character equals the active quote character and the
preceding raw character is not a backslash. -/
theorem quoted_step_inert (st : ScanState) (prev : Option Char) (c q : Char)
    (h : st.quoteChar = some q) :
    (scanStep st prev c).1.depthParen = st.depthParen ∧
    (scanStep st prev c).1.depthBracket = st.depthBracket ∧
    (scanStep st prev c).1.depthBrace = st.depthBrace ∧
    (scanStep st prev c).2.1 = false ∧
    (scanStep st prev c).2.2 = false ∧
    ((scanStep st prev c).1.quoteChar = none ↔ (c = q ∧ prev ≠ some '\\')) := by
  obtain ⟨dp, dbk, dbr, qc⟩ := st
  simp only [ScanState.quoteChar] at h
  subst h
  simp only [scanStep]
  by_cases hc : (c == q && prev != some '\\') = true
  · rw [if_pos hc]
    simp at hc
    simp [hc]
  · rw [if_neg hc]
    simp at hc
    refine ⟨rfl, rfl, rfl, rfl, rfl, ?_⟩
    constructor
    · intro hfalse
      exact Option.noConfusion hfalse
    · rintro ⟨hcq, hp⟩
      exact absurd (hc hcq) hp

/-- C8 (witness): inside a double quote, a comma neither separates arguments
nor changes the parenthesis depth. -/
theorem quoted_step_inert_witness :
    ((⟨1, 0, 0, some '"'⟩ : ScanState).quoteChar = some '"') ∧
    (scanStep ⟨1, 0, 0, some '"'⟩ (some 'x') ',').1.depthParen = 1 ∧
    (scanStep ⟨1, 0, 0, some '"'⟩ (some 'x') ',').2.1 = false := by
  refine ⟨rfl, ?_, ?_⟩
  · exact (quoted_step_inert ⟨1, 0, 0, some '"'⟩ (some 'x') ',' '"' rfl).1
  · exact (quoted_step_inert ⟨1, 0, 0, some '"'⟩ (some 'x') ',' '"' rfl).2.2.2.1

/-- C9 (counterexample): an emitted keyword range need not be bounded by
non-identifier characters: for the list `["$x"]` (the shipped PHP profile
contains such entries, e.g. `$GLOBALS`) and the text `a$x;`, the single
emitted range covers `$x` but its left neighbour is the identifier character
`a` — the `\b` assertion before a non-word first character requires a word
character on the left. -/
theorem keyword_bounds_counterexample :
    kwRanges kwDollarList kwDollarText = [(1, 3)] ∧
    rangeSub kwDollarText (1, 3) = "$x".data ∧
    ¬ (∀ r ∈ kwRanges kwDollarList kwDollarText,
        (r.1 = 0 ∨ charIsWord kwDollarText (r.1 - 1) = false) ∧
        charIsWord kwDollarText r.2 = false) := by decide

/-- C9 (amended): for every keyword list and every text, each emitted range's
substring equals one list entry (the list is deduplicated and each entry is
escaped so it matches literally), and whenever the matched entry consists
solely of identifier characters, the range is bounded on both sides by
non-identifier characters or by the text's start/end. -/
theorem kwRanges_sound (ws : List (List Char)) (s : List Char) (r : Nat × Nat)
    (hr : r ∈ kwRanges ws s) :
    rangeSub s r ∈ ws ∧
    ((∀ c ∈ rangeSub s r, wordChar c = true) →
      (r.1 = 0 ∨ charIsWord s (r.1 - 1) = false) ∧ charIsWord s r.2 = false) := by
  obtain ⟨w, hmem, hne, hpre, hlen, hb1, hb2⟩ := kwScanAux_mem hr
  have hdrop : w <+: s.drop r.1 := List.isPrefixOf_iff_prefix.mp hpre
  have hsub : rangeSub s r = w := by
    rw [rangeSub, sliceSub, hlen, Nat.add_sub_cancel_left]
    exact (List.prefix_iff_eq_take.mp hdrop).symm
  refine ⟨hsub ▸ mem_dedupFirst hmem, ?_⟩
  intro hword
  rw [hsub] at hword
  obtain ⟨t, ht⟩ := hdrop
  cases w with
  | nil => exact absurd rfl hne
  | cons c w' =>
      have hhead : s[r.1]? = some c := by
        have hd := List.getElem?_drop s r.1 0
        rw [← ht] at hd
        simpa using hd.symm
      have hcw1 : charIsWord s r.1 = true := by
        rw [charIsWord, hhead]
        exact hword c (List.mem_cons_self _ _)
      constructor
      · by_cases h0 : r.1 = 0
        · exact Or.inl h0
        · refine Or.inr ?_
          rw [boundaryAt, hcw1] at hb1
          rw [if_neg h0] at hb1
          cases hcwp : charIsWord s (r.1 - 1)
          · rfl
          · rw [hcwp] at hb1
            simp at hb1
      · have hlast : s[r.2 - 1]? = some ((c :: w').getLast (by simp)) := by
          have hd := List.getElem?_drop s r.1 ((c :: w').length - 1)
          rw [← ht, List.getElem?_append_left (by simp)] at hd
          rw [List.getLast_eq_getElem]
          have hidx : r.2 - 1 = r.1 + ((c :: w').length - 1) := by
            rw [hlen]; simp
          rw [hidx, ← hd]
          exact (List.getElem?_eq_getElem _).trans rfl
        have hcw2 : charIsWord s (r.2 - 1) = true := by
          rw [charIsWord, hlast]
          exact hword _ (List.getLast_mem _)
        have h20 : r.2 ≠ 0 := by rw [hlen]; simp
        rw [boundaryAt, if_neg h20, hcw2] at hb2
        cases hcwe : charIsWord s r.2
        · rfl
        · rw [hcwe] at hb2
          simp at hb2

/-- C9 (witness): the amended statement applied to a concrete keyword rule. -/
theorem kwRanges_sound_witness :
    ((0, 2) ∈ kwRanges ["if".data, "else".data] "if x".data) ∧
    (rangeSub "if x".data (0, 2) ∈ ["if".data, "else".data] ∧
      ((∀ c ∈ rangeSub "if x".data (0, 2), wordChar c = true) →
        ((0, 2).1 = 0 ∨ charIsWord "if x".data ((0, 2).1 - 1) = false) ∧
        charIsWord "if x".data (0, 2).2 = false)) :=
  ⟨by decide, kwRanges_sound ["if".data, "else".data] "if x".data (0, 2) (by decide)⟩

/-- C10: `#resetSpaces` never leaves a line starting with a space character
(every remaining leading indentation consists of tabs), and it returns the
empty string on any input consisting entirely of whitespace (including the
empty input). -/
theorem resetSpaces_spec (s : List Char) :
    (∀ l ∈ (resetSpaces s).splitOn '\n', l.head? ≠ some ' ') ∧
    ((∀ c ∈ s, jsWs c = true) → resetSpaces s = []) := by
  constructor
  · intro l hl
    rw [resetSpaces] at hl
    by_cases h0 : s = []
    · rw [if_pos h0] at hl
      rcases List.mem_singleton.mp hl with rfl
      simp
    · rw [if_neg h0] at hl
      dsimp only at hl
      by_cases h1 : trimEnd (dropLeadingNl (normNewlines s)) = []
      · rw [if_pos h1] at hl
        rcases List.mem_singleton.mp hl with rfl
        simp
      · rw [if_neg h1] at hl
        set s2 := (trimEnd (dropLeadingNl (normNewlines s))).map
          (fun c => if c == '\t' then ' ' else c) with hs2
        set lines := s2.splitOn '\n' with hlines
        set b := runLen (fun c => c == ' ') lines.headI with hb
        have hnn : ∀ l0 ∈ lines.map (processLine b), '\n' ∉ l0 := by
          intro l0 hl0
          rcases List.mem_map.mp hl0 with ⟨l1, hl1, rfl⟩
          exact processLine_no_nl (not_mem_splitOn hl1)
        have hne : lines.map (processLine b) ≠ [] := by
          intro hcon
          have hlne : lines ≠ [] := by
            rw [hlines]
            exact List.splitOnP_ne_nil _ s2
          exact hlne (List.map_eq_nil_iff.mp hcon)
        rw [@List.splitOn_intercalate Char (lines.map (processLine b)) _ '\n' hnn hne]
            at hl
        rcases List.mem_map.mp hl with ⟨l1, _, rfl⟩
        exact processLine_head b l1
  · intro hws
    have h1 : ∀ c ∈ normNewlines s, jsWs c = true := by
      intro c hc
      rcases mem_normNewlines hc with hc | rfl
      · exact hws c hc
      · decide
    have h2 : ∀ c ∈ dropLeadingNl (normNewlines s), jsWs c = true :=
      fun c hc => h1 c ((List.dropWhile_sublist _).mem hc)
    have h3 : trimEnd (dropLeadingNl (normNewlines s)) = [] := by
      rw [trimEnd]
      have hrev : (dropLeadingNl (normNewlines s)).reverse.dropWhile jsWs = [] := by
        rw [List.dropWhile_eq_nil_iff]
        intro x hx
        exact h2 x (List.mem_reverse.mp hx)
      rw [hrev]
      rfl
    rw [resetSpaces]
    by_cases h0 : s = []
    · rw [if_pos h0]
    · rw [if_neg h0]
      dsimp only
      rw [if_pos h3]

/-- C10 (witness): the statement applied to a concrete indented input, and to a
concrete all-whitespace input. -/
theorem resetSpaces_spec_witness :
    ("\t\tb".data ∈ (resetSpaces "a\n  b".data).splitOn '\n') ∧
    ("\t\tb".data.head? ≠ some ' ') ∧
    (∀ c ∈ " \n ".data, jsWs c = true) ∧ resetSpaces " \n ".data = [] :=
  ⟨by decide, (resetSpaces_spec "a\n  b".data).1 _ (by decide), by decide,
    (resetSpaces_spec " \n ".data).2 (by decide)⟩

end ACode
